import Mathlib

/-!
# project1.c : Collatz producer / consumer over a pipe

A shallow embedding of `src/project1.c`.

* Text is `List Char`.  A C string is the list of its characters before the
  terminating NUL, so `*p == 0` reads `p = []` for an argument string.
* `unsigned long long` is a `Nat` below `2 ^ 64`; the `3 * n + 1` step is taken
  modulo `2 ^ 64`.  The `int` step counter is an `Int` wrapped to 32 bits in
  two's complement (what the usual targets do; ISO C leaves the overflow
  undefined).
* `buffer` is the `BUFFER_SIZE`-byte array; it starts with arbitrary content
  (the array is never initialised), which is an input of the model.
* The pipe is the FIFO list of the frames written to it: every `write` sends one
  block of `BUFFER_SIZE` bytes and every `read` asks for `BUFFER_SIZE` bytes.
* The child loop may run forever; it is embedded with a fuel argument and
  returns `none` when the fuel does not suffice.
-/

namespace Project1

/-! ## Constants -/

/-- Index of the read end of the pipe. -/
def READ_END : Nat := 0

/-- Index of the write end of the pipe. -/
def WRITE_END : Nat := 1

/-- Size in bytes of the buffer sent over the pipe. -/
def BUFFER_SIZE : Nat := 25

/-- Largest `unsigned long long`, from `limits.h`. -/
def ULLONG_MAX : Nat := 2 ^ 64 - 1

/-- Largest `int`, from `limits.h`. -/
def INT_MAX : Nat := 2 ^ 31 - 1

/-! ## C library: formatting -/

/-- The character of a decimal digit `d < 10`. -/
def digitChar (d : Nat) : Char := Char.ofNat (48 + d)

/-- Decimal digits of `v`, most significant first; `fuel` bounds the number of digits. -/
def decimalFuel : Nat → Nat → List Char
  | 0, _ => []
  | fuel + 1, v =>
    if v < 10 then [digitChar v] else decimalFuel fuel (v / 10) ++ [digitChar (v % 10)]

/-- Text printed by the conversion `%llu` for the value `v`. -/
def decimal (v : Nat) : List Char := decimalFuel (v + 1) v

/-- Text printed by the conversion `%d` for the value `i`. -/
def decimalInt (i : Int) : List Char :=
  if i < 0 then '-' :: decimal i.natAbs else decimal i.toNat

/-- The C string held by a character array: the characters before the first NUL. -/
def cstr (buffer : List Char) : List Char := buffer.takeWhile (fun c => c != '\x00')

/-- Call `snprintf(buffer, size, fmt, v)` where `text` is the full formatted text: at most
`size - 1` characters of the text are stored, followed by a NUL; the bytes after that keep
their content. -/
def snprintf (buffer : List Char) (size : Nat) (text : List Char) : List Char :=
  if size = 0 then buffer
  else
    let body := text.take (size - 1)
    body ++ '\x00' :: buffer.drop (body.length + 1)

/-- Call `write(fd[WRITE_END], &buffer, size)`: the first `size` bytes of the buffer are
appended to the pipe as one frame. -/
def write (pipe : List (List Char)) (buffer : List Char) (size : Nat) : List (List Char) :=
  pipe ++ [buffer.take size]

/-- Call `strcmp(a, b) == 0` on two character arrays. -/
def strcmpEq (a b : List Char) : Bool := cstr a == cstr b

/-! ## C library: `strtoull` in base 10 -/

/-- Result of `strtoull`: the returned value, the text `endptr` points at, and whether
`errno` was set to `ERANGE`. -/
structure Strtoull where
  value : Nat
  endptr : List Char
  erange : Bool
deriving DecidableEq, Repr

/-- White space in the C locale. -/
def isspace (c : Char) : Bool :=
  c == ' ' || c == '\t' || c == '\n' || c == '\x0b' || c == '\x0c' || c == '\r'

/-- Value of a decimal digit character. -/
def digitVal (c : Char) : Nat := c.toNat - 48

/-- Accumulation of the digits read by `strtoull`, left to right. -/
def accumulate (ds : List Char) : Nat := ds.foldl (fun acc c => 10 * acc + digitVal c) 0

/-- The optional sign read by `strtoull`: whether it is a minus, and the text after it. -/
def readSign : List Char → Bool × List Char
  | '-' :: t => (true, t)
  | '+' :: t => (false, t)
  | s => (false, s)

/-- Library function `strtoull(nptr, &endptr, 10)` (ISO C 7.22.1.4): leading white space is
skipped, one optional sign is read, then the longest run of decimal digits.  Without any
digit the result is 0 and `endptr` is `nptr`.  A value above `ULLONG_MAX` yields
`ULLONG_MAX` with `ERANGE`; otherwise a leading `-` negates the value in the unsigned type. -/
def strtoull (nptr : List Char) : Strtoull :=
  let s := nptr.dropWhile isspace
  let signed := readSign s
  let ds := signed.2.takeWhile Char.isDigit
  let rest := signed.2.dropWhile Char.isDigit
  if ds = [] then { value := 0, endptr := nptr, erange := false }
  else
    let v := accumulate ds
    if v > ULLONG_MAX then { value := ULLONG_MAX, endptr := rest, erange := true }
    else { value := if signed.1 then (2 ^ 64 - v) % 2 ^ 64 else v, endptr := rest, erange := false }

/-! ## Argument validation (`main`, lines 41 to 99) -/

/-- The four places where `main` rejects its arguments. -/
inductive Failure where
  /-- Line 41: `argc != 2`. -/
  | usage
  /-- Line 60: leading `-`, or the one-character string `0`. -/
  | notPositive
  /-- Line 84: `n == 0` or characters left after the number. -/
  | notNumber
  /-- Line 95: `n == ULLONG_MAX` with `ERANGE`. -/
  | tooLarge
deriving DecidableEq, Repr

/-- The line written to `stderr` at each failure. -/
def diagnostic : Failure → List Char
  | .usage => "Please enter a positive integer as the one and only argument.\n".toList
  | .notPositive => "Sorry, you must enter a positive integer.\n".toList
  | .notNumber => "Sorry, you must enter a positive integer.\n".toList
  | .tooLarge => "That number is too large.\n".toList

/-- The checks of `main` up to line 99 on `argv` (program name included): either the start
value `n`, or the failure that makes `main` return 1. -/
def validate (argv : List (List Char)) : Except Failure Nat :=
  match argv with
  | [_, firstArgument] =>
    if firstArgument.head? = some '-'
        || (firstArgument.head? = some '0' && firstArgument.length == 1) then
      .error .notPositive
    else
      let r := strtoull firstArgument
      let n := r.value
      if n == 0 || r.endptr != [] then .error .notNumber
      else if n == ULLONG_MAX && r.erange then .error .tooLarge
      else .ok n
  | _ => .error .usage

/-! ## The child process (lines 124 to 162) -/

/-- Wrap an integer to the range of a 32-bit `int`. -/
def wrapInt (i : Int) : Int := (i + 2 ^ 31) % 2 ^ 32 - 2 ^ 31

/-- The recurrence of lines 140 to 147 on an `unsigned long long`. -/
def collatzStep (n : Nat) : Nat :=
  if n % 2 = 0 then n / 2 else (3 * n + 1) % 2 ^ 64

/-- Variables of the child process, with the frames it has written so far. -/
structure Child where
  n : Nat
  steps : Int
  highestNumber : Nat
  buffer : List Char
  pipe : List (List Char)
deriving DecidableEq, Repr

/-- One pass through the body of the `while (n != 1)` loop, lines 131 to 147. -/
def childBody (s : Child) : Child :=
  let steps := wrapInt (s.steps + 1)
  let highestNumber := if s.n > s.highestNumber then s.n else s.highestNumber
  let buffer := snprintf s.buffer BUFFER_SIZE (decimal s.n)
  let pipe := write s.pipe buffer BUFFER_SIZE
  { n := collatzStep s.n, steps := steps, highestNumber := highestNumber,
    buffer := buffer, pipe := pipe }

/-- The loop `while (n != 1)`, at most `fuel` passes; `none` when `n` is still not 1. -/
def childLoop : Nat → Child → Option Child
  | 0, s => if s.n = 1 then some s else none
  | fuel + 1, s => if s.n = 1 then some s else childLoop fuel (childBody s)

/-- The child after `passes` passes of the loop `while (n != 1)`, or at the end of the loop
when it ends earlier: the state reached at that point of a run, whether the run ends or not. -/
def childPasses : Nat → Child → Child
  | 0, s => s
  | passes + 1, s => if s.n = 1 then s else childPasses passes (childBody s)

/-- Lines 151 to 159: the three frames sent after the loop. -/
def childFinish (s : Child) : Child :=
  let b1 := snprintf s.buffer BUFFER_SIZE (decimal s.n)
  let p1 := write s.pipe b1 BUFFER_SIZE
  let b2 := snprintf b1 BUFFER_SIZE (decimalInt s.steps)
  let p2 := write p1 b2 BUFFER_SIZE
  let b3 := snprintf b2 BUFFER_SIZE (decimal s.highestNumber)
  let p3 := write p2 b3 BUFFER_SIZE
  { s with buffer := b3, pipe := p3 }

/-- The child process started on `n` with the given buffer content: its final state, whose
`pipe` holds every frame it wrote, in order. -/
def child (fuel n : Nat) (buffer : List Char) : Option Child :=
  (childLoop fuel
    { n := n, steps := 0, highestNumber := 1, buffer := buffer, pipe := [] }).map childFinish

/-! ## The parent process (lines 165 to 196) -/

/-- Variables of the parent process: its buffer, the frames not yet read, and the text
printed to `stdout`. -/
structure Parent where
  buffer : List Char
  pipe : List (List Char)
  stdout : List Char
deriving DecidableEq, Repr

/-- Call `read(fd[READ_END], &buffer, BUFFER_SIZE)`: the next frame replaces the buffer;
at end of data nothing is read and the buffer is unchanged. -/
def read (s : Parent) : Parent :=
  match s.pipe with
  | [] => s
  | frame :: pipe => { s with buffer := frame, pipe := pipe }

/-- The loop of lines 167 to 184 over the frames still in the pipe. -/
def parentLoop : List (List Char) → List Char → List Char → Parent
  | [], buffer, stdout => { buffer := buffer, pipe := [], stdout := stdout }
  | frame :: pipe, _, stdout =>
    let stdout := stdout ++ cstr frame
    if strcmpEq frame "1".toList then { buffer := frame, pipe := pipe, stdout := stdout }
    else parentLoop pipe frame (stdout ++ ", ".toList)

/-- The parent process reading the frames of `pipe` (the write end is closed after them). -/
def parent (pipe : List (List Char)) (buffer : List Char) : Parent :=
  let s := parentLoop pipe buffer []
  let s := read s
  let s := { s with stdout := s.stdout ++ " (".toList ++ cstr s.buffer }
  let s := read s
  { s with stdout := s.stdout ++ ", ".toList ++ cstr s.buffer ++ ")\n".toList }

/-! ## The program -/

/-- What the environment decides: whether `pipe` and `fork` succeed, and the content of the
uninitialised `buffer` array. -/
structure Env where
  pipeOk : Bool
  forkOk : Bool
  buffer : List Char

/-- Observable result of a run of the program. -/
structure Outcome where
  stdout : List Char
  stderr : List Char
  status : Nat
  pipeCreated : Bool
  forked : Bool
deriving DecidableEq, Repr

/-- The program: `none` when the child has not finished within `fuel` passes of its loop. -/
def main (env : Env) (fuel : Nat) (argv : List (List Char)) : Option Outcome :=
  match validate argv with
  | .error e =>
    some { stdout := [], stderr := diagnostic e, status := 1,
           pipeCreated := false, forked := false }
  | .ok n =>
    if !env.pipeOk then
      some { stdout := [], stderr := "Pipe failed".toList, status := 1,
             pipeCreated := false, forked := false }
    else if !env.forkOk then
      some { stdout := [], stderr := "Fork Failed\n".toList, status := 1,
             pipeCreated := true, forked := false }
    else
      (child fuel n env.buffer).map fun c =>
        { stdout := (parent c.pipe env.buffer).stdout, stderr := [], status := 0,
          pipeCreated := true, forked := true }


/-! ## Notions used to state the properties -/

/-- The start value `n` reaches 1 after exactly `k` applications of the recurrence, and not
before: the `while (n != 1)` loop makes exactly `k` passes. -/
def reachesOne : Nat → Nat → Bool
  | n, 0 => n == 1
  | n, k + 1 => n != 1 && reachesOne (collatzStep n) k

/-- The first `k + 1` values of the 64-bit recurrence from `n`: `n`, `collatzStep n`, ... -/
def trajectory (n k : Nat) : List Nat := List.iterate collatzStep n (k + 1)

/-- The largest of 1 and the first `k` values of the recurrence from `n`. -/
def highest (n k : Nat) : Nat := (List.iterate collatzStep n k).foldl max 1

/-- The Collatz map on the integers, without any bound on the value. -/
def collatz (n : Nat) : Nat := if n % 2 = 0 then n / 2 else 3 * n + 1

/-- The texts of the frames in a pipe. -/
def texts (pipe : List (List Char)) : List (List Char) := pipe.map cstr

/-- Numeric value of a string of decimal digits, by position. -/
def numericValue : List Char → Nat
  | [] => 0
  | c :: cs => digitVal c * 10 ^ cs.length + numericValue cs

/-! ## Facts about the formatting functions -/

theorem digitChar_ne_nul (d : Nat) (h : d < 10) : digitChar d ≠ '\x00' := by
  interval_cases d <;> decide

theorem digitChar_isDigit (d : Nat) (h : d < 10) : (digitChar d).isDigit = true := by
  interval_cases d <;> decide

theorem digitVal_digitChar (d : Nat) (h : d < 10) : digitVal (digitChar d) = d := by
  interval_cases d <;> decide

theorem digitChar_eq_one (d : Nat) (h : d < 10) (h1 : digitChar d = '1') : d = 1 := by
  interval_cases d <;> first | rfl | (exact absurd h1 (by decide))

theorem decimalFuel_digits (fuel : Nat) : ∀ v c, c ∈ decimalFuel fuel v → ∃ d, d < 10 ∧ c = digitChar d := by
  induction fuel with
  | zero => intro v c h; simp [decimalFuel] at h
  | succ fuel ih =>
    intro v c h
    unfold decimalFuel at h
    split at h
    · simp at h; exact ⟨v, by assumption, h⟩
    · rw [List.mem_append] at h
      rcases h with h | h
      · exact ih _ _ h
      · simp at h; exact ⟨v % 10, Nat.mod_lt _ (by norm_num), h⟩

theorem decimalFuel_length (fuel : Nat) :
    ∀ v e, v < fuel → 0 < e → v < 10 ^ e → (decimalFuel fuel v).length ≤ e := by
  induction fuel with
  | zero => intro v e h; omega
  | succ fuel ih =>
    intro v e hf he hv
    unfold decimalFuel
    split
    · simp; omega
    · rename_i h10
      obtain ⟨e, rfl⟩ : ∃ e', e = e' + 1 := ⟨e - 1, by omega⟩
      have he0 : 0 < e := by
        rcases Nat.eq_zero_or_pos e with h | h
        · subst h; simp at hv; omega
        · exact h
      have hdiv : v / 10 < 10 ^ e := by
        rw [Nat.div_lt_iff_lt_mul (by norm_num)]
        rw [pow_succ] at hv; exact hv
      have := ih (v / 10) e (by omega) he0 hdiv
      simp; omega

theorem decimalFuel_ne_nil (fuel v : Nat) : decimalFuel (fuel + 1) v ≠ [] := by
  unfold decimalFuel
  split <;> simp

theorem decimal_digits (v : Nat) : ∀ c ∈ decimal v, ∃ d, d < 10 ∧ c = digitChar d :=
  fun c h => decimalFuel_digits _ v c h

theorem decimal_length (v e : Nat) (he : 0 < e) (hv : v < 10 ^ e) : (decimal v).length ≤ e :=
  decimalFuel_length _ v e (Nat.lt_succ_self v) he hv

theorem decimal_no_nul (v : Nat) : ∀ c ∈ decimal v, c ≠ '\x00' := by
  intro c h
  obtain ⟨d, hd, rfl⟩ := decimal_digits v c h
  exact digitChar_ne_nul d hd

theorem decimal_eq_one (v : Nat) (h : decimal v = ['1']) : v = 1 := by
  unfold decimal decimalFuel at h
  split at h
  · rename_i h10
    simp at h
    exact digitChar_eq_one v h10 h
  · rename_i h10
    exfalso
    have hv : v = (v - 1) + 1 := by omega
    have : decimalFuel v (v / 10) ≠ [] := by rw [hv]; exact decimalFuel_ne_nil _ _
    have hl := congrArg List.length h
    simp at hl
    exact this hl

theorem decimal_one : decimal 1 = ['1'] := by decide


theorem cstr_append_nul (text rest : List Char) (h : ∀ c ∈ text, c ≠ '\x00') :
    cstr (text ++ '\x00' :: rest) = text := by
  induction text with
  | nil => simp [cstr]
  | cons c cs ih =>
    have hc : c ≠ '\x00' := h c (by simp)
    have ih2 := ih (fun d hd => h d (by simp [hd]))
    have hb : (c != '\x00') = true := by simpa using hc
    simp only [cstr] at ih2 ⊢
    rw [List.cons_append, List.takeWhile_cons, hb]
    simp only [if_true, ih2]

/-- A text without NUL that is shorter than the buffer size is stored whole by `snprintf`
and is read back from the frame that `write` sends. -/
theorem cstr_frame (buffer text : List Char) (h : ∀ c ∈ text, c ≠ '\x00')
    (hl : text.length < BUFFER_SIZE) :
    cstr ((snprintf buffer BUFFER_SIZE text).take BUFFER_SIZE) = text ∧
    cstr (snprintf buffer BUFFER_SIZE text) = text := by
  have htake : text.take (BUFFER_SIZE - 1) = text := List.take_of_length_le (by omega)
  have hs : snprintf buffer BUFFER_SIZE text = text ++ '\x00' :: buffer.drop (text.length + 1) := by
    unfold snprintf
    rw [if_neg (by decide)]
    simp only [htake]
  constructor
  · rw [hs, List.take_append_eq_append_take, List.take_of_length_le (Nat.le_of_lt hl)]
    obtain ⟨k, hk⟩ : ∃ k, BUFFER_SIZE - text.length = k + 1 := ⟨BUFFER_SIZE - text.length - 1, by omega⟩
    rw [hk, List.take_succ_cons]
    exact cstr_append_nul _ _ h
  · rw [hs]; exact cstr_append_nul _ _ h

theorem snprintf_length (buffer text : List Char) (hb : buffer.length = BUFFER_SIZE) :
    (snprintf buffer BUFFER_SIZE text).length = BUFFER_SIZE := by
  unfold snprintf
  rw [if_neg (by decide)]
  simp only [List.length_append, List.length_cons, List.length_drop, List.length_take, hb]
  unfold BUFFER_SIZE
  omega

theorem decimal_length_u64 (v : Nat) (hv : v < 2 ^ 64) : (decimal v).length ≤ 20 :=
  decimal_length v 20 (by norm_num) (lt_trans hv (by norm_num))

theorem decimalInt_nonneg (i : Int) (h : 0 ≤ i) : decimalInt i = decimal i.toNat := by
  unfold decimalInt; rw [if_neg (by omega)]

theorem decimalInt_length (i : Int) (h0 : 0 ≤ i) (h1 : i ≤ INT_MAX) : (decimalInt i).length ≤ 10 := by
  rw [decimalInt_nonneg i h0]
  apply decimal_length _ 10 (by norm_num)
  have : (i.toNat : Int) = i := Int.toNat_of_nonneg h0
  unfold INT_MAX at h1
  have h2 : (i.toNat : Int) < 10 ^ 10 := by rw [this]; push_cast at h1; omega
  exact_mod_cast h2

theorem wrapInt_range (i : Int) : - 2 ^ 31 ≤ wrapInt i ∧ wrapInt i < 2 ^ 31 := by
  unfold wrapInt; omega

theorem wrapInt_id (i : Int) (h0 : - 2 ^ 31 ≤ i) (h1 : i < 2 ^ 31) : wrapInt i = i := by
  unfold wrapInt; omega

theorem decimalInt_no_nul (i : Int) : ∀ c ∈ decimalInt i, c ≠ '\x00' := by
  intro c h
  unfold decimalInt at h
  split at h
  · rcases List.mem_cons.mp h with h | h
    · rw [h]; decide
    · exact decimal_no_nul _ c h
  · exact decimal_no_nul _ c h

theorem decimalInt_length_int (i : Int) (h0 : - 2 ^ 31 ≤ i) (h1 : i < 2 ^ 31) :
    (decimalInt i).length ≤ 11 := by
  unfold decimalInt
  split
  · have : (decimal i.natAbs).length ≤ 10 := by
      apply decimal_length _ 10 (by norm_num)
      have : (i.natAbs : Int) < 10 ^ 10 := by omega
      exact_mod_cast this
    simp; omega
  · have : (decimal i.toNat).length ≤ 10 := by
      apply decimal_length _ 10 (by norm_num)
      have : (i.toNat : Int) < 10 ^ 10 := by omega
      exact_mod_cast this
    omega


/-! ## The child loop -/

theorem collatzStep_lt (n : Nat) (h : n < 2 ^ 64) : collatzStep n < 2 ^ 64 := by
  unfold collatzStep
  split
  · omega
  · exact Nat.mod_lt _ (by norm_num)

theorem decimal_fits (v : Nat) (h : v < 2 ^ 64) : (decimal v).length < BUFFER_SIZE := by
  have := decimal_length_u64 v h
  unfold BUFFER_SIZE; omega

theorem wrapInt_succ (a : Int) (k : Nat) :
    wrapInt (wrapInt (a + 1) + k) = wrapInt (a + (k + 1 : Nat)) := by
  unfold wrapInt; push_cast; omega

/-- The loop started in state `s` whose value reaches 1 after `k` passes: it ends, and the
final state is described pass by pass. -/
theorem childLoop_trace (k : Nat) : ∀ (s : Child) (fuel : Nat),
    reachesOne s.n k = true → k ≤ fuel → s.n < 2 ^ 64 → s.highestNumber < 2 ^ 64 →
    - 2 ^ 31 ≤ s.steps → s.steps < 2 ^ 31 →
    ∃ t fs, childLoop fuel s = some t ∧ t.n = 1 ∧ t.steps = wrapInt (s.steps + k) ∧
      t.highestNumber = (List.iterate collatzStep s.n k).foldl max s.highestNumber ∧
      t.highestNumber < 2 ^ 64 ∧
      t.pipe = s.pipe ++ fs ∧ fs.map cstr = (List.iterate collatzStep s.n k).map decimal := by
  induction k with
  | zero =>
    intro s fuel hr _ _ hh hs0 hs1
    have h1 : s.n = 1 := by simpa [reachesOne] using hr
    refine ⟨s, [], ?_, h1, ?_, ?_, hh, ?_, ?_⟩
    · cases fuel <;> simp [childLoop, h1]
    · simp [wrapInt_id _ hs0 hs1]
    · simp [List.iterate]
    · simp
    · simp [List.iterate]
  | succ k ih =>
    intro s fuel hr hf hn hh _ _
    simp only [reachesOne, Bool.and_eq_true, bne_iff_ne, ne_eq] at hr
    obtain ⟨hne, hr⟩ := hr
    obtain ⟨fuel, rfl⟩ : ∃ f, fuel = f + 1 := ⟨fuel - 1, by omega⟩
    have hh2 : (childBody s).highestNumber < 2 ^ 64 := by
      simp only [childBody]; split <;> assumption
    obtain ⟨t, fs, ht, h1, hs, hhi, hlt, hp, hfs⟩ :=
      ih (childBody s) fuel hr (by omega) (collatzStep_lt _ hn) hh2
        (wrapInt_range _).1 (wrapInt_range _).2
    refine ⟨t, (snprintf s.buffer BUFFER_SIZE (decimal s.n)).take BUFFER_SIZE :: fs,
      ?_, h1, ?_, ?_, hlt, ?_, ?_⟩
    · simp only [childLoop, if_neg hne]; exact ht
    · rw [hs]; exact wrapInt_succ _ _
    · rw [hhi]
      simp only [childBody, List.iterate, List.foldl_cons]
      congr 1
      split
      · rw [max_eq_right]; omega
      · rw [max_eq_left]; omega
    · rw [hp]; simp [childBody, write]
    · simp only [List.map_cons, List.iterate, hfs]
      rw [(cstr_frame s.buffer (decimal s.n) (decimal_no_nul _) (decimal_fits _ hn)).1]
      rfl


theorem reachesOne_values (k : Nat) : ∀ n, reachesOne n k = true →
    (∀ v ∈ List.iterate collatzStep n k, v ≠ 1) ∧ collatzStep^[k] n = 1 := by
  induction k with
  | zero => intro n h; simpa [reachesOne, List.iterate] using h
  | succ k ih =>
    intro n h
    simp only [reachesOne, Bool.and_eq_true, bne_iff_ne, ne_eq] at h
    obtain ⟨h1, h2⟩ := ih _ h.2
    refine ⟨?_, by simpa using h2⟩
    intro v hv
    simp only [List.iterate, List.mem_cons] at hv
    rcases hv with rfl | hv
    · exact h.1
    · exact h1 v hv

/-- The child started on a value that reaches 1 after `k` passes ends and has written the
`k` loop frames followed by the frames of 1, the step counter and the highest number. -/
theorem child_run (n k fuel : Nat) (buffer : List Char) (hr : reachesOne n k = true)
    (hf : k ≤ fuel) (hn : n < 2 ^ 64) :
    ∃ c fs f1 f2 f3, child fuel n buffer = some c ∧ c.pipe = fs ++ [f1, f2, f3] ∧
      fs.map cstr = (List.iterate collatzStep n k).map decimal ∧
      cstr f1 = ['1'] ∧ cstr f2 = decimalInt (wrapInt k) ∧ cstr f3 = decimal (highest n k) ∧
      c.steps = wrapInt k ∧ c.highestNumber = highest n k := by
  obtain ⟨t, fs, ht, h1, hs, hhi, hlt, hp, hfs⟩ :=
    childLoop_trace k { n := n, steps := 0, highestNumber := 1, buffer := buffer, pipe := [] }
      fuel hr hf hn (by norm_num) (by norm_num) (by norm_num)
  simp only [List.nil_append, zero_add] at hp hs hhi
  obtain ⟨b1, hb1⟩ : ∃ b, b = snprintf t.buffer BUFFER_SIZE (decimal t.n) := ⟨_, rfl⟩
  obtain ⟨b2, hb2⟩ : ∃ b, b = snprintf b1 BUFFER_SIZE (decimalInt t.steps) := ⟨_, rfl⟩
  obtain ⟨b3, hb3⟩ : ∃ b, b = snprintf b2 BUFFER_SIZE (decimal t.highestNumber) := ⟨_, rfl⟩
  have hsl : (decimalInt t.steps).length < BUFFER_SIZE := by
    have := decimalInt_length_int t.steps (by rw [hs]; exact (wrapInt_range _).1)
      (by rw [hs]; exact (wrapInt_range _).2)
    unfold BUFFER_SIZE; omega
  refine ⟨childFinish t, fs, b1.take BUFFER_SIZE, b2.take BUFFER_SIZE, b3.take BUFFER_SIZE,
    ?_, ?_, hfs, ?_, ?_, ?_, hs, hhi⟩
  · simp [child, ht]
  · simp only [childFinish, write, hp, List.append_assoc, List.singleton_append, hb1, hb2, hb3]
    rfl
  · rw [hb1, h1, (cstr_frame _ _ (decimal_no_nul _) (decimal_fits _ (by norm_num))).1]
    exact decimal_one
  · rw [hb2, (cstr_frame _ _ (decimalInt_no_nul _) hsl).1, hs]
  · rw [hb3, (cstr_frame _ _ (decimal_no_nul _) (decimal_fits _ hlt)).1, hhi]
    rfl

/-! ## The parent loop -/

theorem cstr_one : cstr "1".toList = ['1'] := by decide

theorem parentLoop_cons (f : List Char) (pipe : List (List Char)) (buffer out : List Char) :
    parentLoop (f :: pipe) buffer out =
      if strcmpEq f "1".toList then { buffer := f, pipe := pipe, stdout := out ++ cstr f }
      else parentLoop pipe f (out ++ cstr f ++ ", ".toList) := rfl

theorem strcmpEq_one (f : List Char) : strcmpEq f "1".toList = decide (cstr f = ['1']) := by
  unfold strcmpEq
  rw [cstr_one]
  by_cases h : cstr f = ['1'] <;> simp [h]

theorem parentLoop_run : ∀ (fs : List (List Char)) (f1 : List Char) (rest : List (List Char))
    (buffer out : List Char), (∀ f ∈ fs, cstr f ≠ ['1']) → cstr f1 = ['1'] →
    parentLoop (fs ++ f1 :: rest) buffer out =
      { buffer := f1, pipe := rest,
        stdout := out ++ (fs.map (fun f => cstr f ++ ", ".toList)).flatten ++ ['1'] } := by
  intro fs
  induction fs with
  | nil =>
    intro f1 rest buffer out _ h1
    rw [List.nil_append, parentLoop_cons, strcmpEq_one, h1]
    simp
  | cons f fs ih =>
    intro f1 rest buffer out hne h1
    have hf : cstr f ≠ ['1'] := hne f (by simp)
    rw [List.cons_append, parentLoop_cons, strcmpEq_one, decide_eq_false hf]
    rw [if_neg (by simp), ih f1 rest f _ (fun g hg => hne g (by simp [hg])) h1]
    simp [List.append_assoc]

theorem parent_run (fs : List (List Char)) (f1 f2 f3 buffer : List Char)
    (hne : ∀ f ∈ fs, cstr f ≠ ['1']) (h1 : cstr f1 = ['1']) :
    parent (fs ++ [f1, f2, f3]) buffer =
      { buffer := f3, pipe := [],
        stdout := (fs.map (fun f => cstr f ++ ", ".toList)).flatten ++ ['1'] ++ " (".toList
          ++ cstr f2 ++ ", ".toList ++ cstr f3 ++ ")\n".toList } := by
  unfold parent
  rw [parentLoop_run fs f1 [f2, f3] buffer [] hne h1]
  simp [read]

theorem intercalate_cons_cons (sep t u : List Char) (us : List (List Char)) :
    sep.intercalate (t :: u :: us) = t ++ sep ++ sep.intercalate (u :: us) := by
  simp [List.intercalate, List.intersperse]

theorem intercalate_snoc (sep : List Char) : ∀ (ts : List (List Char)) (last : List Char),
    sep.intercalate (ts ++ [last]) = (ts.map (fun t => t ++ sep)).flatten ++ last := by
  intro ts
  induction ts with
  | nil => intro last; simp [List.intercalate]
  | cons t ts ih =>
    intro last
    have h := ih last
    cases ts with
    | nil => simp [List.intercalate, List.intersperse]
    | cons u us =>
      rw [List.cons_append, List.cons_append, intercalate_cons_cons]
      rw [List.cons_append] at h
      rw [h]
      simp [List.append_assoc]


/-! ## Validation and the whole program -/

theorem strtoull_value_le (s : List Char) : (strtoull s).value ≤ ULLONG_MAX := by
  unfold strtoull
  simp only
  split
  · simp
  · split
    · simp
    · rename_i h
      simp only
      split
      · have : (2 ^ 64 - accumulate
            (List.takeWhile Char.isDigit (readSign (List.dropWhile isspace s)).2)) % 2 ^ 64
              < 2 ^ 64 := Nat.mod_lt _ (by norm_num)
        unfold ULLONG_MAX; omega
      · omega

theorem validate_ok_range (argv : List (List Char)) (n : Nat) (h : validate argv = .ok n) :
    1 ≤ n ∧ n ≤ ULLONG_MAX := by
  unfold validate at h
  split at h
  · rename_i p firstArgument
    split at h
    · cases h
    · simp only at h
      split at h
      · cases h
      · rename_i h0
        split at h
        · cases h
        · cases h
          simp only [Bool.or_eq_true, beq_iff_eq, not_or] at h0
          exact ⟨Nat.pos_of_ne_zero h0.1, strtoull_value_le _⟩
  · cases h

theorem trajectory_eq (n k : Nat) (h : reachesOne n k = true) :
    trajectory n k = List.iterate collatzStep n k ++ [1] := by
  unfold trajectory
  rw [List.iterate_add, (reachesOne_values k n h).2]
  rfl


/-- The program on accepted arguments whose start value reaches 1 after `k` passes. -/
theorem main_run (env : Env) (fuel : Nat) (argv : List (List Char)) (n k : Nat)
    (hv : validate argv = .ok n) (hr : reachesOne n k = true) (hf : k ≤ fuel)
    (hp : env.pipeOk = true) (hk : env.forkOk = true) :
    main env fuel argv = some
      { stdout := ", ".toList.intercalate ((trajectory n k).map decimal) ++ " (".toList
          ++ decimalInt (wrapInt k) ++ ", ".toList ++ decimal (highest n k) ++ ")\n".toList,
        stderr := [], status := 0, pipeCreated := true, forked := true } := by
  have hn : n < 2 ^ 64 := by
    have := (validate_ok_range argv n hv).2
    unfold ULLONG_MAX at this; omega
  obtain ⟨c, fs, f1, f2, f3, hc, hpipe, hfs, h1, h2, h3, _, _⟩ :=
    child_run n k fuel env.buffer hr hf hn
  have hne : ∀ f ∈ fs, cstr f ≠ ['1'] := by
    intro f hf h
    have hm : cstr f ∈ fs.map cstr := List.mem_map_of_mem _ hf
    rw [hfs, List.mem_map] at hm
    obtain ⟨v, hv1, hv2⟩ := hm
    rw [h] at hv2
    exact (reachesOne_values k n hr).1 v hv1 (decimal_eq_one v hv2)
  have hjoin : (fs.map (fun f => cstr f ++ ", ".toList)).flatten ++ ['1'] =
      ", ".toList.intercalate ((trajectory n k).map decimal) := by
    rw [trajectory_eq n k hr, List.map_append, List.map_singleton, intercalate_snoc, ← hfs,
      List.map_map, decimal_one]
    rfl
  rw [← hjoin]
  unfold main
  rw [hv]
  simp only [hp, hk, Bool.not_true, Bool.false_eq_true, if_false]
  rw [hc, Option.map_some', hpipe, parent_run fs f1 f2 f3 env.buffer hne h1, h2, h3]

theorem texts_child (n k fuel : Nat) (buffer : List Char) (hr : reachesOne n k = true)
    (hf : k ≤ fuel) (hn : n < 2 ^ 64) :
    ∃ c, child fuel n buffer = some c ∧
      texts c.pipe = (trajectory n k).map decimal ++
        [decimalInt (wrapInt k), decimal (highest n k)] ∧
      c.steps = wrapInt k ∧ c.highestNumber = highest n k := by
  obtain ⟨c, fs, f1, f2, f3, hc, hpipe, hfs, h1, h2, h3, hs, hh⟩ :=
    child_run n k fuel buffer hr hf hn
  refine ⟨c, hc, ?_, hs, hh⟩
  rw [trajectory_eq n k hr, hpipe]
  simp only [texts, List.map_append, List.map_cons, List.map_nil, hfs, h1, h2, h3, decimal_one,
    List.append_assoc, List.singleton_append]

theorem wrapInt_small (k : Nat) (h : k < 2 ^ 31) : wrapInt k = k := by
  apply wrapInt_id <;> omega

theorem decimalInt_natCast (k : Nat) : decimalInt (k : Int) = decimal k := by
  rw [decimalInt_nonneg _ (by omega)]; simp

theorem foldl_max_ge (l : List Nat) : ∀ a, a ≤ l.foldl max a ∧ ∀ v ∈ l, v ≤ l.foldl max a := by
  induction l with
  | nil => intro a; simp
  | cons x xs ih =>
    intro a
    obtain ⟨h1, h2⟩ := ih (max a x)
    simp only [List.foldl_cons, List.mem_cons]
    refine ⟨le_trans (le_max_left a x) h1, ?_⟩
    rintro v (rfl | hv)
    · exact le_trans (le_max_right a v) h1
    · exact h2 v hv

theorem foldl_max_mem (l : List Nat) : ∀ a, l.foldl max a = a ∨ l.foldl max a ∈ l := by
  induction l with
  | nil => intro a; simp
  | cons x xs ih =>
    intro a
    simp only [List.foldl_cons, List.mem_cons]
    rcases ih (max a x) with h | h
    · rw [h]
      rcases max_choice a x with h' | h'
      · left; exact h'
      · right; left; exact h'
    · right; right; exact h

theorem highest_spec (n k : Nat) (hr : reachesOne n k = true) :
    highest n k ∈ trajectory n k ∧ n ≤ highest n k ∧ ∀ v ∈ trajectory n k, v ≤ highest n k := by
  have hmax : ∀ v ∈ trajectory n k, v ≤ highest n k := by
    intro v hv
    rw [trajectory_eq n k hr, List.mem_append] at hv
    rcases hv with hv | hv
    · exact (foldl_max_ge _ 1).2 v hv
    · simp only [List.mem_singleton] at hv
      rw [hv]; exact (foldl_max_ge _ 1).1
  refine ⟨?_, hmax n (by simp [trajectory, List.iterate]), hmax⟩
  rw [trajectory_eq n k hr, List.mem_append]
  rcases foldl_max_mem (List.iterate collatzStep n k) 1 with h | h
  · right; simp [highest, h]
  · left; exact h


theorem collatzStep_zero : collatzStep 0 = 0 := by decide

theorem childLoop_zero (fuel : Nat) : ∀ s : Child, s.n = 0 → childLoop fuel s = none := by
  induction fuel with
  | zero => intro s h; simp [childLoop, h]
  | succ fuel ih =>
    intro s h
    rw [childLoop, if_neg (by omega)]
    exact ih _ (by simp [childBody, h, collatzStep_zero])

/-- Once the held value steps to 0 the loop never ends, whatever the fuel. -/
theorem childLoop_step_zero (fuel : Nat) (s : Child) (h1 : s.n ≠ 1)
    (h0 : collatzStep s.n = 0) : childLoop fuel s = none := by
  cases fuel with
  | zero => simp [childLoop, h1]
  | succ fuel =>
    rw [childLoop, if_neg h1]
    exact childLoop_zero fuel _ (by simp [childBody, h0])

theorem childLoop_some_reaches (fuel : Nat) : ∀ (s t : Child), childLoop fuel s = some t →
    ∃ k, k ≤ fuel ∧ reachesOne s.n k = true := by
  induction fuel with
  | zero =>
    intro s t h
    by_cases h1 : s.n = 1
    · exact ⟨0, le_refl _, by simp [reachesOne, h1]⟩
    · simp [childLoop, h1] at h
  | succ fuel ih =>
    intro s t h
    by_cases h1 : s.n = 1
    · exact ⟨0, Nat.zero_le _, by simp [reachesOne, h1]⟩
    · rw [childLoop, if_neg h1] at h
      obtain ⟨k, hk, hr⟩ := ih _ _ h
      exact ⟨k + 1, by omega, by simpa [reachesOne, h1] using hr⟩

theorem child_some_reaches (fuel n : Nat) (buffer : List Char) (c : Child)
    (h : child fuel n buffer = some c) : ∃ k, k ≤ fuel ∧ reachesOne n k = true := by
  unfold child at h
  rw [Option.map_eq_some'] at h
  obtain ⟨t, ht, _⟩ := h
  exact childLoop_some_reaches fuel _ t ht

/-! ## `strtoull` on strings that start with digits -/

theorem isDigit_not_space (c : Char) (h : c.isDigit = true) : isspace c = false := by
  by_contra hs
  simp only [isspace, Bool.not_eq_false, Bool.or_eq_true, beq_iff_eq] at hs
  rcases hs with ((((rfl | rfl) | rfl) | rfl) | rfl) | rfl <;> exact absurd h (by decide)

theorem isDigit_not_sign (c : Char) (h : c.isDigit = true) : c ≠ '-' ∧ c ≠ '+' := by
  constructor <;> rintro rfl <;> exact absurd h (by decide)

theorem accumulate_foldl (s : List Char) : ∀ a : Nat,
    s.foldl (fun acc c => 10 * acc + digitVal c) a = a * 10 ^ s.length + numericValue s := by
  induction s with
  | nil => intro a; simp [numericValue]
  | cons c cs ih =>
    intro a
    rw [List.foldl_cons, ih, numericValue, List.length_cons, pow_succ]
    ring

theorem accumulate_eq (s : List Char) : accumulate s = numericValue s := by
  unfold accumulate
  rw [accumulate_foldl]; simp

/-- On a non-empty run of digits followed by text that does not start with a digit,
`strtoull` reads exactly the digits. -/
theorem strtoull_digits_then (ds rest : List Char) (hne : ds ≠ [])
    (hd : ∀ c ∈ ds, c.isDigit = true) (hr : ∀ c, rest.head? = some c → c.isDigit = false) :
    strtoull (ds ++ rest) =
      if numericValue ds > ULLONG_MAX then { value := ULLONG_MAX, endptr := rest, erange := true }
      else { value := numericValue ds, endptr := rest, erange := false } := by
  obtain ⟨c, cs, rfl⟩ := List.exists_cons_of_ne_nil hne
  have hc : c.isDigit = true := hd c (by simp)
  have hsp : isspace c = false := isDigit_not_space c hc
  obtain ⟨hm, hp⟩ := isDigit_not_sign c hc
  have htr : rest.takeWhile Char.isDigit = [] := by
    cases rest with
    | nil => rfl
    | cons r rs => simp [hr r rfl]
  have hdr : rest.dropWhile Char.isDigit = rest := by
    cases rest with
    | nil => rfl
    | cons r rs => simp [hr r rfl]
  have htake : (c :: cs ++ rest).takeWhile Char.isDigit = c :: cs := by
    rw [List.takeWhile_append_of_pos hd, htr, List.append_nil]
  have hdrop : (c :: cs ++ rest).dropWhile Char.isDigit = rest := by
    rw [List.dropWhile_append_of_pos hd, hdr]
  have hws : (c :: cs ++ rest).dropWhile isspace = c :: (cs ++ rest) := by
    rw [List.cons_append, List.dropWhile_cons_of_neg (by simp [hsp])]
  have hsign : readSign (c :: (cs ++ rest)) = (false, c :: cs ++ rest) := by
    unfold readSign
    split
    · rename_i heq; simp only [List.cons.injEq] at heq; exact absurd heq.1 hm
    · rename_i heq; simp only [List.cons.injEq] at heq; exact absurd heq.1 hp
    · rfl
  unfold strtoull
  simp only [hws, hsign, htake, hdrop, accumulate_eq]
  simp

/-- The checks of `main` on an argument made of decimal digits only. -/
theorem validate_digits (prog s : List Char) (hne : s ≠ [])
    (hd : ∀ c ∈ s, c.isDigit = true) :
    validate [prog, s] =
      if s = ['0'] then .error .notPositive
      else if numericValue s > ULLONG_MAX then .error .tooLarge
      else if numericValue s = 0 then .error .notNumber
      else .ok (numericValue s) := by
  have hst := strtoull_digits_then s [] hne hd (by simp)
  rw [List.append_nil] at hst
  obtain ⟨c, cs, rfl⟩ := List.exists_cons_of_ne_nil hne
  have hm : c ≠ '-' := (isDigit_not_sign c (hd c (by simp))).1
  unfold validate
  simp only [List.head?_cons, Option.some.injEq, hm, decide_False, Bool.false_or,
    List.length_cons, hst]
  by_cases h0 : c :: cs = ['0']
  · simp only [List.cons.injEq] at h0
    simp [h0.1, h0.2]
  · rw [if_neg h0]
    have : ¬ (decide (c = '0') && (cs.length + 1 == 1)) = true := by
      intro h
      simp only [Bool.and_eq_true, decide_eq_true_eq, beq_iff_eq, add_left_eq_self,
        List.length_eq_zero] at h
      exact h0 (by rw [h.1, h.2])
    rw [if_neg this]
    by_cases hbig : numericValue (c :: cs) > ULLONG_MAX
    · simp only [hbig, if_true]
      simp [ULLONG_MAX]
    · simp only [hbig, if_false]
      by_cases hz : numericValue (c :: cs) = 0
      · simp [hz]
      · simp [hz]

/-- The step gives a value of at least 1 on every unsigned 64-bit value of at least 1 except
6148914691236517205, where `3 * n + 1` is `2 ^ 64`. -/
theorem collatzStep_pos (m : Nat) (hm1 : 1 ≤ m) (hm2 : m ≤ 2 ^ 64 - 1)
    (hne : m ≠ 6148914691236517205) : 1 ≤ collatzStep m := by
  have hm3 : m < 18446744073709551616 := by omega
  unfold collatzStep
  split
  · omega
  · rw [Nat.one_le_iff_ne_zero]
    intro h0
    obtain ⟨q, hq⟩ := Nat.dvd_of_mod_eq_zero h0
    clear h0
    norm_num at hq
    have hq3 : q < 3 := by
      by_contra hge
      have : 18446744073709551616 * 3 ≤ 18446744073709551616 * q :=
        Nat.mul_le_mul_left _ (Nat.le_of_not_lt hge)
      linarith
    interval_cases q
    · omega
    · exact hne (by omega)
    · omega

theorem numericValue_append_singleton (xs : List Char) (d : Char) :
    numericValue (xs ++ [d]) = numericValue xs * 10 + digitVal d := by
  induction xs with
  | nil => simp [numericValue]
  | cons x xs ih =>
    rw [List.cons_append, numericValue, ih, numericValue, List.length_append,
      List.length_singleton, pow_succ]
    ring

theorem numericValue_decimalFuel (fuel : Nat) : ∀ v, v < fuel →
    numericValue (decimalFuel fuel v) = v := by
  induction fuel with
  | zero => intro v h; omega
  | succ fuel ih =>
    intro v hv
    unfold decimalFuel
    split
    · rename_i h10
      simp [numericValue, digitVal_digitChar v h10]
    · rw [numericValue_append_singleton, ih (v / 10) (by omega),
        digitVal_digitChar _ (Nat.mod_lt _ (by norm_num))]
      omega

/-- Reading back the decimal text of a value gives the value: every value from 1 to
`ULLONG_MAX` is the start value accepted for its own decimal text. -/
theorem validate_decimal (prog : List Char) (n : Nat) (h1 : 1 ≤ n) (h2 : n ≤ 2 ^ 64 - 1) :
    validate [prog, decimal n] = .ok n := by
  have hval : numericValue (decimal n) = n := numericValue_decimalFuel _ n (Nat.lt_succ_self n)
  have hd : ∀ c ∈ decimal n, c.isDigit = true := by
    intro c hc
    obtain ⟨d, hd, rfl⟩ := decimal_digits n c hc
    exact digitChar_isDigit d hd
  rw [validate_digits prog (decimal n) (decimalFuel_ne_nil _ _) hd, hval]
  have h0 : decimal n ≠ ['0'] := by
    intro h
    have : numericValue (decimal n) = 0 := by rw [h]; decide
    omega
  rw [if_neg h0, if_neg (by unfold ULLONG_MAX; omega), if_neg (by omega)]

/-! ## Runs of the child, ended or not -/

/-- The loop with fuel ends exactly when the state after that many passes holds 1, and
then returns that state. -/
theorem childLoop_eq_passes (fuel : Nat) : ∀ s : Child,
    childLoop fuel s = if (childPasses fuel s).n = 1 then some (childPasses fuel s) else none := by
  induction fuel with
  | zero => intro s; simp [childLoop, childPasses]
  | succ fuel ih =>
    intro s
    by_cases h1 : s.n = 1
    · simp [childLoop, childPasses, h1]
    · simp only [childLoop, childPasses, if_neg h1]
      exact ih _

/-- What the child has written after `p` passes at most: the texts of the first `q` values
of the recurrence, none of them 1, where `q` is `p` unless the loop has ended before. -/
theorem childPasses_trace (p : Nat) : ∀ s : Child, s.n < 2 ^ 64 →
    ∃ q fs, q ≤ p ∧ (q < p → collatzStep^[q] s.n = 1) ∧
      (∀ v ∈ List.iterate collatzStep s.n q, v ≠ 1) ∧
      (childPasses p s).n = collatzStep^[q] s.n ∧
      (childPasses p s).pipe = s.pipe ++ fs ∧
      fs.map cstr = (List.iterate collatzStep s.n q).map decimal := by
  induction p with
  | zero =>
    intro s _
    exact ⟨0, [], le_refl _, by omega, by simp [List.iterate], rfl, by simp [childPasses],
      by simp [List.iterate]⟩
  | succ p ih =>
    intro s hn
    by_cases h1 : s.n = 1
    · exact ⟨0, [], Nat.zero_le _, fun _ => h1, by simp [List.iterate],
        by simp [childPasses, h1], by simp [childPasses, h1], by simp [List.iterate]⟩
    · obtain ⟨q, fs, hq, hend, hv, hval, hp, hfs⟩ := ih (childBody s) (collatzStep_lt _ hn)
      refine ⟨q + 1, (snprintf s.buffer BUFFER_SIZE (decimal s.n)).take BUFFER_SIZE :: fs,
        by omega, ?_, ?_, ?_, ?_, ?_⟩
      · intro hlt
        rw [Function.iterate_succ_apply]
        exact hend (by omega)
      · intro v hv'
        simp only [List.iterate, List.mem_cons] at hv'
        rcases hv' with rfl | hv'
        · exact h1
        · exact hv v hv'
      · simp only [childPasses, if_neg h1, hval]
        rfl
      · simp only [childPasses, if_neg h1, hp]
        simp [childBody, write]
      · simp only [List.map_cons, List.iterate, hfs]
        rw [(cstr_frame s.buffer (decimal s.n) (decimal_no_nul _) (decimal_fits _ hn)).1]
        rfl

/-- Consecutive elements of the list of iterates of `f` are related by `f`. -/
theorem pairs_iterate (f : Nat → Nat) (m : Nat) : ∀ a : Nat,
    ∀ pr ∈ (List.iterate f a m).zip (List.iterate f a m).tail, pr.2 = f pr.1 := by
  induction m with
  | zero => intro a pr h; simp [List.iterate] at h
  | succ m ih =>
    intro a pr h
    cases m with
    | zero => simp [List.iterate] at h
    | succ m =>
      have ih2 := ih (f a) pr
      simp only [List.iterate, List.tail_cons, List.zip_cons_cons, List.mem_cons] at h ih2
      rcases h with rfl | h
      · rfl
      · exact ih2 h

/-- The 64-bit step is the Collatz map itself when `3 * a + 1` does not wrap. -/
theorem collatzStep_eq_collatz (a : Nat) (h : a % 2 = 1 → a ≤ 6148914691236517204) :
    collatzStep a = collatz a := by
  unfold collatzStep collatz
  split
  · rfl
  · rename_i hodd
    have hle : a ≤ 6148914691236517204 := h (by omega)
    exact Nat.mod_eq_of_lt (by omega)

/-! ## The claims -/

/-- C1: for every accepted argument whose start value `n` (between 1 and 2^64 - 1) reaches 1
after `k` applications of the 64-bit recurrence, the program exits with status 0 and its
stdout is exactly the decimal texts of the trajectory from `n` to the final 1 joined by
", ", then " (", the step counter, ", ", the highest value and ")" with a newline; the
counter is `k` itself below 2^31.  Every `n` from 1 to 2^64 - 1 is the start value accepted
for its decimal text.  For the argument "6" the output is
"6, 3, 10, 5, 16, 8, 4, 2, 1 (8, 16)" and a newline. -/
theorem C1_stdout_format :
    (∀ (env : Env) (fuel : Nat) (argv : List (List Char)) (n k : Nat),
      validate argv = .ok n → reachesOne n k = true → k ≤ fuel →
      env.pipeOk = true → env.forkOk = true →
      (1 ≤ n ∧ n ≤ 2 ^ 64 - 1) ∧
      ((trajectory n k).head? = some n ∧ (trajectory n k).getLast? = some 1) ∧
      (k < 2 ^ 31 → decimalInt (wrapInt k) = decimal k) ∧
      main env fuel argv = some
        { stdout := ", ".toList.intercalate ((trajectory n k).map decimal) ++ " (".toList
            ++ decimalInt (wrapInt k) ++ ", ".toList ++ decimal (highest n k) ++ ")\n".toList,
          stderr := [], status := 0, pipeCreated := true, forked := true }) ∧
    (∀ (prog : List Char) (n : Nat), 1 ≤ n → n ≤ 2 ^ 64 - 1 →
      validate [prog, decimal n] = .ok n) ∧
    (∀ (env : Env) (fuel : Nat) (prog : List Char),
      8 ≤ fuel → env.pipeOk = true → env.forkOk = true →
      main env fuel [prog, "6".toList] = some
        { stdout := "6, 3, 10, 5, 16, 8, 4, 2, 1 (8, 16)\n".toList,
          stderr := [], status := 0, pipeCreated := true, forked := true }) := by
  refine ⟨?_, validate_decimal, ?_⟩
  · intro env fuel argv n k hv hr hf hp hk
    refine ⟨validate_ok_range argv n hv, ⟨?_, ?_⟩, ?_, main_run env fuel argv n k hv hr hf hp hk⟩
    · simp [trajectory, List.iterate]
    · rw [trajectory_eq n k hr]; simp
    · intro h31
      rw [wrapInt_small k h31, decimalInt_natCast]
  · intro env fuel prog hf hp hk
    rw [main_run env fuel [prog, "6".toList] 6 8 (by rfl) (by decide) hf hp hk]
    congr 1

/-- The general part of C1 applied to the argument "27", which reaches 1 after 111 steps. -/
theorem C1_stdout_format_witness :
    validate ["project1".toList, "27".toList] = .ok 27 ∧ reachesOne 27 111 = true ∧
    main { pipeOk := true, forkOk := true, buffer := List.replicate 25 'x' } 111
        ["project1".toList, "27".toList] = some
      { stdout := ", ".toList.intercalate ((trajectory 27 111).map decimal) ++ " (".toList
          ++ decimalInt (wrapInt 111) ++ ", ".toList ++ decimal (highest 27 111) ++ ")\n".toList,
        stderr := [], status := 0, pipeCreated := true, forked := true } :=
  ⟨by rfl, by decide,
    (C1_stdout_format.1 { pipeOk := true, forkOk := true, buffer := List.replicate 25 'x' } 111
      ["project1".toList, "27".toList] 27 111 (by rfl) (by decide) (le_refl _) rfl rfl).2.2.2⟩


/-- C2, counterexample: the argument "6148914691236517205" is accepted, its start value lies
between 1 and 2^64 - 1, and the child loop started on it never ends, whatever the fuel. -/
theorem C2_counterexample :
    validate ["project1".toList, "6148914691236517205".toList] = .ok 6148914691236517205 ∧
    1 ≤ 6148914691236517205 ∧ 6148914691236517205 ≤ 2 ^ 64 - 1 ∧
    ∀ (fuel : Nat) (buffer : List Char), child fuel 6148914691236517205 buffer = none := by
  refine ⟨by rfl, by norm_num, by norm_num, ?_⟩
  intro fuel buffer
  unfold child
  have hne : (6148914691236517205 : Nat) ≠ 1 := by decide
  have hz : collatzStep 6148914691236517205 = 0 := by decide
  rw [childLoop_step_zero fuel _ hne hz]
  rfl

/-- C2, amended: for every start value `n` between 1 and 2^64 - 1, the child's loop ends
exactly when the 64-bit recurrence reaches 1 from `n`; when it does so after `k`
applications the loop ends after `k` passes and the last sequence value emitted is 1. -/
theorem C2_terminates_when_one_reached (n : Nat) (buffer : List Char) (h1 : 1 ≤ n)
    (h2 : n ≤ 2 ^ 64 - 1) :
    (∀ k fuel, reachesOne n k = true → k ≤ fuel →
      ∃ c, child fuel n buffer = some c ∧
        texts c.pipe = (trajectory n k).map decimal ++
          [decimalInt (wrapInt k), decimal (highest n k)] ∧
        (trajectory n k).getLast? = some 1) ∧
    (∀ fuel c, child fuel n buffer = some c → ∃ k, k ≤ fuel ∧ reachesOne n k = true) := by
  constructor
  · intro k fuel hr hf
    obtain ⟨c, hc, ht, _, _⟩ := texts_child n k fuel buffer hr hf (by omega)
    refine ⟨c, hc, ht, ?_⟩
    rw [trajectory_eq n k hr]; simp
  · intro fuel c hc
    exact child_some_reaches fuel n buffer c hc

/-- The amended C2 at start value 27 with a buffer of 25 letters. -/
theorem C2_terminates_when_one_reached_witness :
    (1 ≤ 27 ∧ 27 ≤ 2 ^ 64 - 1) ∧ reachesOne 27 111 = true ∧
    ∃ c, child 111 27 (List.replicate 25 'x') = some c ∧
      texts c.pipe = (trajectory 27 111).map decimal ++
        [decimalInt (wrapInt (111 : Nat)), decimal (highest 27 111)] ∧
      (trajectory 27 111).getLast? = some 1 :=
  ⟨⟨by norm_num, by norm_num⟩, by decide,
    (C2_terminates_when_one_reached 27 (List.replicate 25 'x') (by norm_num) (by norm_num)).1
      111 111 (by decide) (le_refl _)⟩


/-- C3: for every start value `n` from 1 to 2^64 - 1 on which the child's loop ends, after
`k` applications of the recurrence with `k` below 2^31, the step counter is `k`, the step
count frame carries the decimal text of `k`, and the sequence values emitted (the final 1
included) are `k + 1` in number.  For start value 7 the step count is 16. -/
theorem C3_step_count :
    (∀ (n k fuel : Nat) (buffer : List Char), 1 ≤ n → n ≤ 2 ^ 64 - 1 →
      reachesOne n k = true → k < 2 ^ 31 → k ≤ fuel →
      (collatzStep^[k] n = 1 ∧ ∀ v ∈ List.iterate collatzStep n k, v ≠ 1) ∧
      ∃ c, child fuel n buffer = some c ∧ c.steps = k ∧
        texts c.pipe = (trajectory n k).map decimal ++ [decimal k, decimal (highest n k)] ∧
        ((trajectory n k).map decimal).length = k + 1) ∧
    (∀ (fuel : Nat) (buffer : List Char), 16 ≤ fuel →
      ∃ c, child fuel 7 buffer = some c ∧ c.steps = 16 ∧
        texts c.pipe = ["7", "22", "11", "34", "17", "52", "26", "13", "40", "20", "10", "5",
          "16", "8", "4", "2", "1", "16", "52"].map String.toList) := by
  have general : ∀ (n k fuel : Nat) (buffer : List Char), n ≤ 2 ^ 64 - 1 →
      reachesOne n k = true → k < 2 ^ 31 → k ≤ fuel →
      ∃ c, child fuel n buffer = some c ∧ c.steps = k ∧
        texts c.pipe = (trajectory n k).map decimal ++ [decimal k, decimal (highest n k)] ∧
        ((trajectory n k).map decimal).length = k + 1 := by
    intro n k fuel buffer h2 hr h31 hf
    obtain ⟨c, hc, ht, hs, _⟩ := texts_child n k fuel buffer hr hf (by omega)
    rw [wrapInt_small k h31] at hs
    rw [wrapInt_small k h31, decimalInt_natCast] at ht
    exact ⟨c, hc, hs, ht, by simp [trajectory]⟩
  constructor
  · intro n k fuel buffer _ h2 hr h31 hf
    exact ⟨⟨(reachesOne_values k n hr).2, (reachesOne_values k n hr).1⟩,
      general n k fuel buffer h2 hr h31 hf⟩
  · intro fuel buffer hf
    obtain ⟨c, hc, hs, ht, _⟩ := general 7 16 fuel buffer (by norm_num) (by decide)
      (by norm_num) hf
    refine ⟨c, hc, by simpa using hs, ?_⟩
    rw [ht]
    decide

/-- The general part of C3 at start value 27, which reaches 1 after 111 applications. -/
theorem C3_step_count_witness :
    (1 ≤ 27 ∧ 27 ≤ 2 ^ 64 - 1) ∧ reachesOne 27 111 = true ∧ 111 < 2 ^ 31 ∧
    ∃ c, child 111 27 (List.replicate 25 'x') = some c ∧ c.steps = (111 : Nat) ∧
      texts c.pipe = (trajectory 27 111).map decimal ++ [decimal 111, decimal (highest 27 111)] ∧
      ((trajectory 27 111).map decimal).length = 111 + 1 :=
  ⟨⟨by norm_num, by norm_num⟩, by decide, by norm_num,
    (C3_step_count.1 27 111 111 (List.replicate 25 'x') (by norm_num) (by norm_num)
      (by decide) (by norm_num) (le_refl _)).2⟩

/-- C4: for every start value `n` from 1 to 2^64 - 1 on which the child's loop ends, the
highest number it emits is the maximum of the emitted sequence values: it is one of them,
it is at least the start value, and it is at least every emitted value.  For start value 7
it is 52. -/
theorem C4_highest_is_maximum :
    (∀ (n k fuel : Nat) (buffer : List Char), 1 ≤ n → n ≤ 2 ^ 64 - 1 →
      reachesOne n k = true → k ≤ fuel →
      ∃ c h, child fuel n buffer = some c ∧ c.highestNumber = h ∧
        texts c.pipe = (trajectory n k).map decimal ++ [decimalInt (wrapInt k), decimal h] ∧
        h ∈ trajectory n k ∧ n ≤ h ∧ ∀ v ∈ trajectory n k, v ≤ h) ∧
    (∀ (fuel : Nat) (buffer : List Char), 16 ≤ fuel →
      ∃ c, child fuel 7 buffer = some c ∧ c.highestNumber = 52 ∧
        (texts c.pipe).getLast? = some "52".toList) := by
  constructor
  · intro n k fuel buffer _ h2 hr hf
    obtain ⟨c, hc, ht, _, hh⟩ := texts_child n k fuel buffer hr hf (by omega)
    obtain ⟨hm, hn, hmax⟩ := highest_spec n k hr
    exact ⟨c, highest n k, hc, hh, ht, hm, hn, hmax⟩
  · intro fuel buffer hf
    obtain ⟨c, hc, ht, _, hh⟩ := texts_child 7 16 fuel buffer (by decide) hf (by norm_num)
    refine ⟨c, hc, ?_, ?_⟩
    · rw [hh]; decide
    · rw [ht]; decide

/-- The general part of C4 at start value 27, whose highest value is 9232. -/
theorem C4_highest_is_maximum_witness :
    (1 ≤ 27 ∧ 27 ≤ 2 ^ 64 - 1) ∧ reachesOne 27 111 = true ∧
    ∃ c h, child 111 27 (List.replicate 25 'x') = some c ∧ c.highestNumber = h ∧
      texts c.pipe = (trajectory 27 111).map decimal ++
        [decimalInt (wrapInt (111 : Nat)), decimal h] ∧
      h ∈ trajectory 27 111 ∧ 27 ≤ h ∧ ∀ v ∈ trajectory 27 111, v ≤ h :=
  ⟨⟨by norm_num, by norm_num⟩, by decide,
    C4_highest_is_maximum.1 27 111 111 (List.replicate 25 'x') (by norm_num) (by norm_num)
      (by decide) (le_refl _)⟩

/-- C8: on start value 1 the loop makes no pass (the child's state is unchanged by the
loop), the child writes exactly three frames with texts "1", "0" and "1", and the program
run on the argument "1" prints "1 (0, 1)" and a newline and exits with status 0. -/
theorem C8_start_value_one (fuel : Nat) (buffer prog : List Char) :
    childLoop fuel { n := 1, steps := 0, highestNumber := 1, buffer := buffer, pipe := [] } =
      some { n := 1, steps := 0, highestNumber := 1, buffer := buffer, pipe := [] } ∧
    (∃ c, child fuel 1 buffer = some c ∧ c.steps = 0 ∧ c.highestNumber = 1 ∧
      texts c.pipe = ["1".toList, "0".toList, "1".toList]) ∧
    main { pipeOk := true, forkOk := true, buffer := buffer } fuel [prog, "1".toList] = some
      { stdout := "1 (0, 1)\n".toList, stderr := [], status := 0,
        pipeCreated := true, forked := true } := by
  refine ⟨?_, ?_, ?_⟩
  · cases fuel <;> simp [childLoop]
  · obtain ⟨c, hc, ht, hs, hh⟩ := texts_child 1 0 fuel buffer (by decide) (Nat.zero_le _)
      (by norm_num)
    refine ⟨c, hc, ?_, ?_, ?_⟩
    · rw [hs]; decide
    · rw [hh]; decide
    · rw [ht]; decide
  · rw [main_run { pipeOk := true, forkOk := true, buffer := buffer } fuel [prog, "1".toList] 1 0
      (by rfl) (by decide) (Nat.zero_le _) rfl rfl]
    congr 1


/-- C5: an argument that is a non-empty string of decimal digits is classified by its
numeric value `v`: accepted with start value `v` when `v` is between 1 and 2^64 - 1,
rejected as too large exactly when `v` exceeds 2^64 - 1, and rejected with the
positive-integer message when `v` is 0 (at line 60 for the string "0", at line 84 for longer
strings of zeros).  The argument "18446744073709551615" is accepted as 2^64 - 1. -/
theorem C5_digit_strings :
    (∀ (prog s : List Char), s ≠ [] → (∀ c ∈ s, c.isDigit = true) →
      ((1 ≤ numericValue s ∧ numericValue s ≤ 2 ^ 64 - 1) →
        validate [prog, s] = .ok (numericValue s)) ∧
      (validate [prog, s] = .error .tooLarge ↔ numericValue s > 2 ^ 64 - 1) ∧
      (numericValue s > 2 ^ 64 - 1 → ∀ env fuel, main env fuel [prog, s] = some
        { stdout := [], stderr := "That number is too large.\n".toList, status := 1,
          pipeCreated := false, forked := false }) ∧
      (numericValue s = 0 →
        validate [prog, s] = .error (if s = ['0'] then .notPositive else .notNumber) ∧
        ∀ env fuel, main env fuel [prog, s] = some
          { stdout := [], stderr := "Sorry, you must enter a positive integer.\n".toList,
            status := 1, pipeCreated := false, forked := false })) ∧
    (∀ prog : List Char,
      validate [prog, "18446744073709551615".toList] = .ok (2 ^ 64 - 1)) := by
  constructor
  · intro prog s hne hd
    have hv := validate_digits prog s hne hd
    have h0 : s = ['0'] → numericValue s = 0 := by rintro rfl; decide
    have hbig : numericValue s > 2 ^ 64 - 1 → validate [prog, s] = .error .tooLarge := by
      intro h
      rw [hv, if_neg (fun hs => by have := h0 hs; omega), if_pos (by unfold ULLONG_MAX; omega)]
    have hzero : numericValue s = 0 →
        validate [prog, s] = .error (if s = ['0'] then .notPositive else .notNumber) := by
      intro h
      rw [hv]
      by_cases hs : s = ['0']
      · simp [hs]
      · rw [if_neg hs, if_neg hs, if_neg (by unfold ULLONG_MAX; omega), if_pos h]
    refine ⟨?_, ⟨?_, hbig⟩, ?_, ?_⟩
    · rintro ⟨h1, h2⟩
      rw [hv, if_neg (fun hs => by have := h0 hs; omega), if_neg (by unfold ULLONG_MAX; omega),
        if_neg (by omega)]
    · intro h
      rw [hv] at h
      by_cases hs : s = ['0']
      · rw [if_pos hs] at h; cases h
      · rw [if_neg hs] at h
        by_cases hb : numericValue s > ULLONG_MAX
        · unfold ULLONG_MAX at hb; exact hb
        · rw [if_neg hb] at h
          split at h <;> cases h
    · intro h env fuel
      simp only [main, hbig h]
      rfl
    · intro h
      refine ⟨hzero h, ?_⟩
      intro env fuel
      simp only [main, hzero h]
      split <;> rfl
  · intro prog
    rfl

/-- The general part of C5 at the argument "18446744073709551616", which is 2^64. -/
theorem C5_digit_strings_witness :
    "18446744073709551616".toList ≠ [] ∧
    (∀ c ∈ "18446744073709551616".toList, c.isDigit = true) ∧
    numericValue "18446744073709551616".toList > 2 ^ 64 - 1 ∧
    validate ["project1".toList, "18446744073709551616".toList] = .error .tooLarge :=
  ⟨by decide, by decide, by decide,
    (C5_digit_strings.1 "project1".toList "18446744073709551616".toList (by decide)
      (by decide)).2.1.2 (by decide)⟩

/-- C6, the failing input: the argument made of a blank and "-5" passes every check and is
accepted with start value 2^64 - 5, because `strtoull` skips the blank and negates in the
unsigned type, while "-5" itself is rejected at line 60. -/
theorem C6_blank_minus_accepted (prog : List Char) :
    validate [prog, " -5".toList] = .ok 18446744073709551611 ∧
    strtoull " -5".toList = { value := 2 ^ 64 - 5, endptr := [], erange := false } ∧
    validate [prog, "-5".toList] = .error .notPositive :=
  ⟨by rfl, by decide, by rfl⟩

/-- C7: when the argument count is not one, or the argument begins with '-', or its parsed
value is 0, or characters are left after the number (in particular a non-digit character
after a run of digits), the program exits with status 1 with one line on stderr, nothing on
stdout, and neither the pipe nor the child is created. -/
theorem C7_rejected_before_pipe (env : Env) (fuel : Nat) (argv : List (List Char))
    (h : argv.length ≠ 2 ∨ ∃ prog arg, argv = [prog, arg] ∧
      (arg.head? = some '-' ∨ (strtoull arg).value = 0 ∨ (strtoull arg).endptr ≠ [] ∨
        ∃ ds c rest, arg = ds ++ c :: rest ∧ ds ≠ [] ∧ (∀ d ∈ ds, d.isDigit = true) ∧
          c.isDigit = false)) :
    ∃ e, validate argv = .error e ∧ main env fuel argv = some
      { stdout := [], stderr := diagnostic e, status := 1,
        pipeCreated := false, forked := false } := by
  have key : ∃ e, validate argv = .error e := by
    rcases h with h | ⟨prog, arg, rfl, h⟩
    · refine ⟨.usage, ?_⟩
      unfold validate
      split
      · simp at h
      · rfl
    · have hend : (arg.head? = some '-' ∨ (strtoull arg).value = 0 ∨
          (strtoull arg).endptr ≠ []) := by
        rcases h with h | h | h | ⟨ds, c, rest, rfl, hne, hd, hc⟩
        · exact Or.inl h
        · exact Or.inr (Or.inl h)
        · exact Or.inr (Or.inr h)
        · right; right
          rw [strtoull_digits_then ds (c :: rest) hne hd (by simp [hc])]
          split <;> simp
      unfold validate
      simp only
      split
      · exact ⟨_, rfl⟩
      · rename_i hpre
        rcases hend with h | h | h
        · simp [h] at hpre
        · exact ⟨.notNumber, by simp [h]⟩
        · exact ⟨.notNumber, by simp [h]⟩
  obtain ⟨e, he⟩ := key
  exact ⟨e, he, by simp only [main, he]⟩

/-- C7 at the argument "000", whose parsed value is 0. -/
theorem C7_rejected_before_pipe_witness :
    (strtoull "000".toList).value = 0 ∧
    ∃ e, validate ["project1".toList, "000".toList] = .error e ∧
      main { pipeOk := true, forkOk := true, buffer := List.replicate 25 'x' } 5
        ["project1".toList, "000".toList] = some
      { stdout := [], stderr := diagnostic e, status := 1,
        pipeCreated := false, forked := false } :=
  ⟨by decide,
    C7_rejected_before_pipe { pipeOk := true, forkOk := true, buffer := List.replicate 25 'x' } 5
      ["project1".toList, "000".toList]
      (Or.inr ⟨"project1".toList, "000".toList, rfl, Or.inr (Or.inl (by decide))⟩)⟩


/-- C9, counterexample: 6148914691236517205 is an accepted start value, at least 1, and one
application of the recurrence step to it gives 0, since 3n + 1 is exactly 2^64. -/
theorem C9_counterexample :
    validate ["project1".toList, "6148914691236517205".toList] = .ok 6148914691236517205 ∧
    1 ≤ 6148914691236517205 ∧ 3 * 6148914691236517205 + 1 = 2 ^ 64 ∧
    collatzStep 6148914691236517205 = 0 ∧ ¬ 1 ≤ collatzStep 6148914691236517205 :=
  ⟨by rfl, by norm_num, by norm_num, by decide, by decide⟩

/-- C9, amended: every value of the recurrence from an unsigned 64-bit start stays an
unsigned 64-bit integer; for every value `n` from 1 to 2^64 - 1 other than
6148914691236517205 one application of the step gives a value that is again at least 1; so
the value held after `k` steps from a start value of at least 1 is at least 1 as long as no
earlier value is 6148914691236517205, and every value emitted by a run that reaches 1 is at
least 1. -/
theorem C9_values_positive (n : Nat) (h1 : 1 ≤ n) (h2 : n ≤ 2 ^ 64 - 1) :
    collatzStep n ≤ 2 ^ 64 - 1 ∧
    (n ≠ 6148914691236517205 → 1 ≤ collatzStep n) ∧
    (∀ k, (∀ j, j < k → collatzStep^[j] n ≠ 6148914691236517205) →
      1 ≤ collatzStep^[k] n ∧ collatzStep^[k] n ≤ 2 ^ 64 - 1) ∧
    (∀ k, reachesOne n k = true → ∀ v ∈ trajectory n k, 1 ≤ v ∧ v ≤ 2 ^ 64 - 1) := by
  have step : ∀ m, 1 ≤ m → m ≤ 2 ^ 64 - 1 → m ≠ 6148914691236517205 → 1 ≤ collatzStep m :=
    collatzStep_pos
  have bound : ∀ m, m ≤ 2 ^ 64 - 1 → collatzStep m ≤ 2 ^ 64 - 1 := by
    intro m hm
    have := collatzStep_lt m (by omega)
    omega
  have iter : ∀ k, (∀ j, j < k → collatzStep^[j] n ≠ 6148914691236517205) →
      1 ≤ collatzStep^[k] n ∧ collatzStep^[k] n ≤ 2 ^ 64 - 1 := by
    intro k
    induction k with
    | zero => intro _; exact ⟨h1, h2⟩
    | succ k ih =>
      intro hk
      obtain ⟨ha, hb⟩ := ih (fun j hj => hk j (by omega))
      rw [Function.iterate_succ_apply']
      exact ⟨step _ ha hb (hk k (Nat.lt_succ_self k)), bound _ hb⟩
  refine ⟨bound n h2, step n h1 h2, iter, ?_⟩
  intro k hr v hv
  obtain ⟨j, hj, rfl⟩ := List.mem_iterate.mp hv
  apply iter
  intro i hi heq
  have hlt : i < k := by
    rcases Nat.lt_or_ge i k with h | h
    · exact h
    · exfalso
      have hik : i = k := by omega
      rw [hik, (reachesOne_values k n hr).2] at heq
      omega
  have hz : ∀ d, collatzStep^[d] (collatzStep^[i + 1] n) = 0 := by
    intro d
    induction d with
    | zero =>
      rw [Function.iterate_zero_apply, Function.iterate_succ_apply', heq]
      decide
    | succ d ihd => rw [Function.iterate_succ_apply', ihd]; exact collatzStep_zero
  have hone := (reachesOne_values k n hr).2
  have hsplit : k = (k - (i + 1)) + (i + 1) := by omega
  rw [hsplit, Function.iterate_add_apply, hz] at hone
  omega

/-- The amended C9 at start value 27. -/
theorem C9_values_positive_witness :
    (1 ≤ 27 ∧ 27 ≤ 2 ^ 64 - 1) ∧ collatzStep 27 ≤ 2 ^ 64 - 1 ∧ 1 ≤ collatzStep 27 ∧
    reachesOne 27 111 = true ∧ ∀ v ∈ trajectory 27 111, 1 ≤ v ∧ v ≤ 2 ^ 64 - 1 :=
  ⟨⟨by norm_num, by norm_num⟩,
    (C9_values_positive 27 (by norm_num) (by norm_num)).1,
    (C9_values_positive 27 (by norm_num) (by norm_num)).2.1 (by norm_num),
    by decide,
    (C9_values_positive 27 (by norm_num) (by norm_num)).2.2.2 111 (by decide)⟩

/-- C10: the buffer has 25 bytes, at least 21; the decimal text of every unsigned 64-bit
value has at most 20 characters (exactly 20 for 2^64 - 1) and that of every step count from
0 to `INT_MAX` at most 10; so the text and its terminator fit in the buffer, `snprintf`
stores the text whole, and the string the parent finds in its buffer after reading the
frame is the text the child formatted. -/
theorem C10_frame_capacity :
    (BUFFER_SIZE = 25 ∧ 21 ≤ BUFFER_SIZE ∧ (decimal ULLONG_MAX).length = 20) ∧
    (∀ (v : Nat) (buffer other : List Char) (pipe : List (List Char)) (out : List Char),
      v ≤ 2 ^ 64 - 1 →
      (decimal v).length ≤ 20 ∧ (decimal v).length + 1 ≤ BUFFER_SIZE ∧
      (decimal v).take (BUFFER_SIZE - 1) = decimal v ∧
      cstr (snprintf buffer BUFFER_SIZE (decimal v)) = decimal v ∧
      cstr (read { buffer := other, stdout := out,
                   pipe := write [] (snprintf buffer BUFFER_SIZE (decimal v)) BUFFER_SIZE ++ pipe
                 }).buffer = decimal v) ∧
    (∀ (s : Int) (buffer other : List Char) (pipe : List (List Char)) (out : List Char),
      0 ≤ s → s ≤ INT_MAX →
      (decimalInt s).length ≤ 10 ∧ (decimalInt s).length + 1 ≤ BUFFER_SIZE ∧
      (decimalInt s).take (BUFFER_SIZE - 1) = decimalInt s ∧
      cstr (snprintf buffer BUFFER_SIZE (decimalInt s)) = decimalInt s ∧
      cstr (read { buffer := other, stdout := out,
                   pipe := write [] (snprintf buffer BUFFER_SIZE (decimalInt s)) BUFFER_SIZE ++ pipe
                 }).buffer = decimalInt s) := by
  have frame : ∀ (text buffer other : List Char) (pipe : List (List Char)) (out : List Char)
      (e : Nat), e ≤ 20 → text.length ≤ e → (∀ c ∈ text, c ≠ '\x00') →
      text.length ≤ e ∧ text.length + 1 ≤ BUFFER_SIZE ∧
      text.take (BUFFER_SIZE - 1) = text ∧
      cstr (snprintf buffer BUFFER_SIZE text) = text ∧
      cstr (read { buffer := other, stdout := out,
                   pipe := write [] (snprintf buffer BUFFER_SIZE text) BUFFER_SIZE ++ pipe
                 }).buffer = text := by
    intro text buffer other pipe out e he hl hnul
    have hfit : text.length < BUFFER_SIZE := by unfold BUFFER_SIZE; omega
    refine ⟨hl, hfit, List.take_of_length_le (by unfold BUFFER_SIZE at *; omega),
      (cstr_frame buffer text hnul hfit).2, ?_⟩
    simp only [write, List.nil_append, List.singleton_append, read]
    exact (cstr_frame buffer text hnul hfit).1
  refine ⟨⟨rfl, by decide, by decide⟩, ?_, ?_⟩
  · intro v buffer other pipe out hv
    exact frame (decimal v) buffer other pipe out 20 (le_refl _)
      (decimal_length_u64 v (by omega)) (decimal_no_nul v)
  · intro s buffer other pipe out h0 h1
    exact frame (decimalInt s) buffer other pipe out 10 (by norm_num)
      (decimalInt_length s h0 h1) (decimalInt_no_nul s)

/-- The value part of C10 at the largest unsigned 64-bit value, in a buffer of 25 letters. -/
theorem C10_frame_capacity_witness :
    18446744073709551615 ≤ 2 ^ 64 - 1 ∧
    (decimal 18446744073709551615).length ≤ 20 ∧
    cstr (snprintf (List.replicate 25 'x') BUFFER_SIZE (decimal 18446744073709551615)) =
      decimal 18446744073709551615 :=
  ⟨by norm_num,
    (C10_frame_capacity.2.1 18446744073709551615 (List.replicate 25 'x') [] [] []
      (by norm_num)).1,
    (C10_frame_capacity.2.1 18446744073709551615 (List.replicate 25 'x') [] [] []
      (by norm_num)).2.2.2.1⟩


/-- C11: the sequence values the child has emitted at any point of a run, ended or not, are
the first values of the 64-bit recurrence from the start value, so every pair of consecutive
emitted values `(a, b)` has `b = a / 2` for even `a` and `b = (3 * a + 1) mod 2^64` for odd
`a`; on an unsigned 64-bit `a` that step is the integer `3 * a + 1` exactly when
`a ≤ 6148914691236517204 = (2^64 - 2) / 3`; and as long as no odd value above that bound has
been held, the emitted values are those of the Collatz map on the integers. -/
theorem C11_consecutive_values :
    (∀ (n p : Nat) (buffer : List Char), n ≤ 2 ^ 64 - 1 →
      ∃ q, q ≤ p ∧ (q < p → collatzStep^[q] n = 1) ∧
        texts (childPasses p
            { n := n, steps := 0, highestNumber := 1, buffer := buffer, pipe := [] }).pipe =
          (List.iterate collatzStep n q).map decimal ∧
        ∀ pr ∈ (List.iterate collatzStep n q).zip (List.iterate collatzStep n q).tail,
          pr.2 = if pr.1 % 2 = 0 then pr.1 / 2 else (3 * pr.1 + 1) % 2 ^ 64) ∧
    (∀ (n k fuel : Nat) (buffer : List Char), n ≤ 2 ^ 64 - 1 → reachesOne n k = true →
      k ≤ fuel →
      ∃ c, child fuel n buffer = some c ∧
        texts c.pipe = (trajectory n k).map decimal ++
          [decimalInt (wrapInt k), decimal (highest n k)] ∧
        ∀ pr ∈ (trajectory n k).zip (trajectory n k).tail,
          pr.2 = if pr.1 % 2 = 0 then pr.1 / 2 else (3 * pr.1 + 1) % 2 ^ 64) ∧
    ((∀ a : Nat, a ≤ 2 ^ 64 - 1 →
        ((3 * a + 1) % 2 ^ 64 = 3 * a + 1 ↔ a ≤ 6148914691236517204)) ∧
      6148914691236517204 = (2 ^ 64 - 2) / 3) ∧
    (∀ n k : Nat,
      (∀ j, j < k → collatzStep^[j] n % 2 = 1 → collatzStep^[j] n ≤ 6148914691236517204) →
      List.iterate collatzStep n (k + 1) = List.iterate collatz n (k + 1)) := by
  refine ⟨?_, ?_, ⟨?_, by norm_num⟩, ?_⟩
  · intro n p buffer hn
    obtain ⟨q, fs, hq, hend, _, _, hp, hfs⟩ := childPasses_trace p
      { n := n, steps := 0, highestNumber := 1, buffer := buffer, pipe := [] } (by simp; omega)
    refine ⟨q, hq, hend, ?_, pairs_iterate collatzStep q n⟩
    rw [hp]
    simpa [texts] using hfs
  · intro n k fuel buffer hn hr hf
    obtain ⟨c, hc, ht, _, _⟩ := texts_child n k fuel buffer hr hf (by omega)
    exact ⟨c, hc, ht, pairs_iterate collatzStep (k + 1) n⟩
  · intro a ha
    constructor
    · intro h
      have hlt : (3 * a + 1) % 2 ^ 64 < 2 ^ 64 := Nat.mod_lt _ (by norm_num)
      rw [h] at hlt
      omega
    · intro h
      exact Nat.mod_eq_of_lt (by omega)
  · intro n k
    induction k with
    | zero => intro _; rfl
    | succ k ih =>
      intro h
      have hk := ih (fun j hj => h j (by omega))
      have hlast : collatzStep^[k + 1] n = collatz^[k + 1] n := by
        have e1 := congrArg (fun l => l[k]?) hk
        simp only [List.getElem?_iterate _ _ _ _ (Nat.lt_succ_self k)] at e1
        have e2 : collatzStep^[k] n = collatz^[k] n := Option.some.inj e1
        rw [Function.iterate_succ_apply', Function.iterate_succ_apply', ← e2]
        exact collatzStep_eq_collatz _ (h k (Nat.lt_succ_self k))
      rw [List.iterate_add collatzStep n (k + 1) 1, List.iterate_add collatz n (k + 1) 1, hk,
        hlast]
      rfl

/-- The first two parts of C11 at start value 27. -/
theorem C11_consecutive_values_witness :
    27 ≤ 2 ^ 64 - 1 ∧ reachesOne 27 111 = true ∧
    (∃ q, q ≤ 40 ∧ (q < 40 → collatzStep^[q] 27 = 1) ∧
      texts (childPasses 40
          { n := 27, steps := 0, highestNumber := 1, buffer := List.replicate 25 'x',
            pipe := [] }).pipe =
        (List.iterate collatzStep 27 q).map decimal ∧
      ∀ pr ∈ (List.iterate collatzStep 27 q).zip (List.iterate collatzStep 27 q).tail,
        pr.2 = if pr.1 % 2 = 0 then pr.1 / 2 else (3 * pr.1 + 1) % 2 ^ 64) ∧
    ∃ c, child 111 27 (List.replicate 25 'x') = some c ∧
      texts c.pipe = (trajectory 27 111).map decimal ++
        [decimalInt (wrapInt (111 : Nat)), decimal (highest 27 111)] ∧
      ∀ pr ∈ (trajectory 27 111).zip (trajectory 27 111).tail,
        pr.2 = if pr.1 % 2 = 0 then pr.1 / 2 else (3 * pr.1 + 1) % 2 ^ 64 :=
  ⟨by norm_num, by decide,
    C11_consecutive_values.1 27 40 (List.replicate 25 'x') (by norm_num),
    C11_consecutive_values.2.1 27 111 111 (List.replicate 25 'x') (by norm_num) (by decide)
      (le_refl _)⟩

/-- C12: on every stream of frames `xs ++ [f1, s, h]` followed by any further frames, where
no frame of `xs` holds the text "1" and `f1` does, the parent prints the text of each frame
of `xs` followed by ", ", then "1" without separator, then " (", the text of `s`, ", ", the
text of `h` and ")" with a newline; it takes exactly `length xs + 3` frames from the pipe
and leaves the rest; nothing is assumed about what the frames contain. -/
theorem C12_consumer_output (xs : List (List Char)) (f1 s h : List Char)
    (rest : List (List Char)) (buffer : List Char)
    (hxs : ∀ f ∈ xs, cstr f ≠ "1".toList) (h1 : cstr f1 = "1".toList) :
    parent (xs ++ f1 :: s :: h :: rest) buffer =
      { buffer := h, pipe := rest,
        stdout := (xs.map (fun f => cstr f ++ ", ".toList)).flatten ++ "1".toList
          ++ " (".toList ++ cstr s ++ ", ".toList ++ cstr h ++ ")\n".toList } ∧
    (xs ++ f1 :: s :: h :: rest).length = (xs.length + 3) + rest.length := by
  constructor
  · unfold parent
    rw [parentLoop_run xs f1 (s :: h :: rest) buffer [] hxs h1]
    simp [read]
  · simp only [List.length_append, List.length_cons]
    omega

/-- C12 on the frames "6", "3", "1", "2", "6" followed by one more frame, each written by
`snprintf` over a buffer of 25 letters. -/
theorem C12_consumer_output_witness :
    (∀ f ∈ [snprintf (List.replicate 25 'x') 25 "6".toList,
        snprintf (List.replicate 25 'x') 25 "3".toList], cstr f ≠ "1".toList) ∧
    cstr (snprintf (List.replicate 25 'x') 25 "1".toList) = "1".toList ∧
    (parent ([snprintf (List.replicate 25 'x') 25 "6".toList,
        snprintf (List.replicate 25 'x') 25 "3".toList] ++
        snprintf (List.replicate 25 'x') 25 "1".toList ::
        snprintf (List.replicate 25 'x') 25 "2".toList ::
        snprintf (List.replicate 25 'x') 25 "6".toList ::
        [snprintf (List.replicate 25 'x') 25 "9".toList]) []).stdout = "6, 3, 1 (2, 6)\n".toList :=
  ⟨by decide, by decide,
    by
      rw [(C12_consumer_output
        [snprintf (List.replicate 25 'x') 25 "6".toList,
          snprintf (List.replicate 25 'x') 25 "3".toList]
        (snprintf (List.replicate 25 'x') 25 "1".toList)
        (snprintf (List.replicate 25 'x') 25 "2".toList)
        (snprintf (List.replicate 25 'x') 25 "6".toList)
        [snprintf (List.replicate 25 'x') 25 "9".toList] [] (by decide) (by decide)).1]
      decide⟩


/-- C13: the decimal text of a value is "1" only for the value 1, and the loop sends only
values other than 1, so at any point of any run no frame written inside the loop holds the
text "1"; on a run that ends, the parent's loop therefore stops exactly at the frame of the
final 1, after the `k` loop frames, and leaves the step-count and highest-number frames to
the two reads that follow, also when their text is "1" (as for start value 2, whose output
is "2, 1 (1, 2)" and a newline). -/
theorem C13_stop_at_terminal_one :
    (∀ v : Nat, decimal v = "1".toList ↔ v = 1) ∧
    (∀ (n p : Nat) (buffer : List Char), n ≤ 2 ^ 64 - 1 →
      ∀ f ∈ (childPasses p
          { n := n, steps := 0, highestNumber := 1, buffer := buffer, pipe := [] }).pipe,
        cstr f ≠ "1".toList) ∧
    (∀ (n k fuel : Nat) (buffer other : List Char), n ≤ 2 ^ 64 - 1 →
      reachesOne n k = true → k ≤ fuel →
      ∃ c fs f1 f2 f3, child fuel n buffer = some c ∧ c.pipe = fs ++ [f1, f2, f3] ∧
        fs.length = k ∧ (∀ f ∈ fs, cstr f ≠ "1".toList) ∧ cstr f1 = "1".toList ∧
        cstr f2 = decimalInt (wrapInt k) ∧ cstr f3 = decimal (highest n k) ∧
        parentLoop c.pipe other [] =
          { buffer := f1, pipe := [f2, f3],
            stdout := (fs.map (fun f => cstr f ++ ", ".toList)).flatten ++ "1".toList }) ∧
    (∀ (fuel : Nat) (buffer prog : List Char), 1 ≤ fuel →
      (∃ c, child fuel 2 buffer = some c ∧
        texts c.pipe = ["2".toList, "1".toList, "1".toList, "2".toList]) ∧
      main { pipeOk := true, forkOk := true, buffer := buffer } fuel [prog, "2".toList] = some
        { stdout := "2, 1 (1, 2)\n".toList, stderr := [], status := 0,
          pipeCreated := true, forked := true }) := by
  refine ⟨?_, ?_, ?_, ?_⟩
  · intro v
    exact ⟨decimal_eq_one v, fun h => by rw [h]; exact decimal_one⟩
  · intro n p buffer hn f hf
    obtain ⟨q, fs, _, _, hv, _, hp, hfs⟩ := childPasses_trace p
      { n := n, steps := 0, highestNumber := 1, buffer := buffer, pipe := [] } (by simp; omega)
    rw [hp, List.nil_append] at hf
    intro h
    have hm : cstr f ∈ fs.map cstr := List.mem_map_of_mem _ hf
    rw [hfs, List.mem_map] at hm
    obtain ⟨v, hv1, hv2⟩ := hm
    rw [h] at hv2
    exact hv v hv1 (decimal_eq_one v hv2)
  · intro n k fuel buffer other hn hr hf
    obtain ⟨c, fs, f1, f2, f3, hc, hpipe, hfs, h1, h2, h3, _, _⟩ :=
      child_run n k fuel buffer hr hf (by omega)
    have hne : ∀ f ∈ fs, cstr f ≠ "1".toList := by
      intro f hf h
      have hm : cstr f ∈ fs.map cstr := List.mem_map_of_mem _ hf
      rw [hfs, List.mem_map] at hm
      obtain ⟨v, hv1, hv2⟩ := hm
      rw [h] at hv2
      exact (reachesOne_values k n hr).1 v hv1 (decimal_eq_one v hv2)
    have hlen : fs.length = k := by
      have := congrArg List.length hfs
      simpa using this
    refine ⟨c, fs, f1, f2, f3, hc, hpipe, hlen, hne, h1, h2, h3, ?_⟩
    rw [hpipe]
    exact parentLoop_run fs f1 [f2, f3] other [] hne h1
  · intro fuel buffer prog hf
    constructor
    · obtain ⟨c, hc, ht, _, _⟩ := texts_child 2 1 fuel buffer (by decide) hf (by norm_num)
      exact ⟨c, hc, by rw [ht]; decide⟩
    · rw [main_run { pipeOk := true, forkOk := true, buffer := buffer } fuel [prog, "2".toList]
        2 1 (by rfl) (by decide) hf rfl rfl]
      congr 1

/-- The parts of C13 on runs at start value 27. -/
theorem C13_stop_at_terminal_one_witness :
    27 ≤ 2 ^ 64 - 1 ∧ reachesOne 27 111 = true ∧
    (∀ f ∈ (childPasses 40
        { n := 27, steps := 0, highestNumber := 1, buffer := List.replicate 25 'x',
          pipe := [] }).pipe, cstr f ≠ "1".toList) ∧
    ∃ c fs f1 f2 f3, child 111 27 (List.replicate 25 'x') = some c ∧
      c.pipe = fs ++ [f1, f2, f3] ∧
      fs.length = 111 ∧ (∀ f ∈ fs, cstr f ≠ "1".toList) ∧ cstr f1 = "1".toList ∧
      cstr f2 = decimalInt (wrapInt (111 : Nat)) ∧ cstr f3 = decimal (highest 27 111) ∧
      parentLoop c.pipe [] [] =
        { buffer := f1, pipe := [f2, f3],
          stdout := (fs.map (fun f => cstr f ++ ", ".toList)).flatten ++ "1".toList } :=
  ⟨by norm_num, by decide,
    C13_stop_at_terminal_one.2.1 27 40 (List.replicate 25 'x') (by norm_num),
    C13_stop_at_terminal_one.2.2.1 27 111 111 (List.replicate 25 'x') [] (by norm_num)
      (by decide) (le_refl _)⟩

/-- The frames written in any number of passes from a state holding 0 all hold the text
"0", and the state still holds 0. -/
theorem childPasses_zero (p : Nat) : ∀ s : Child, s.n = 0 →
    (childPasses p s).n = 0 ∧
    texts (childPasses p s).pipe = texts s.pipe ++ List.replicate p "0".toList := by
  induction p with
  | zero => intro s h; simp [childPasses, h]
  | succ p ih =>
    intro s h
    have hb : (childBody s).n = 0 := by simp [childBody, h, collatzStep_zero]
    obtain ⟨hn, ht⟩ := ih (childBody s) hb
    rw [childPasses, if_neg (by omega)]
    refine ⟨hn, ?_⟩
    rw [ht]
    have hframe : texts (childBody s).pipe = texts s.pipe ++ ["0".toList] := by
      simp only [childBody, write, texts, List.map_append, List.map_cons, List.map_nil, h]
      rw [(cstr_frame s.buffer (decimal 0) (decimal_no_nul _) (decimal_fits _ (by norm_num))).1]
      rfl
    rw [hframe, List.append_assoc, List.replicate_succ]
    rfl

/-- C14: the argument "6148914691236517205" passes validation; its value is (2^64 - 1) / 3,
odd and in range; `3 * n + 1` is exactly 2^64, so the step gives 0, and 0 is even, steps to
itself and is not 1.  From that start value the child's loop never ends, whatever the fuel:
after `p + 1` passes it has written the frame of the start value followed by `p` frames
"0", it never reaches the frames of 1, the step count and the highest number, and the
program never finishes. -/
theorem C14_never_reaches_one (prog buffer : List Char) :
    validate [prog, "6148914691236517205".toList] = .ok 6148914691236517205 ∧
    (6148914691236517205 = (2 ^ 64 - 1) / 3 ∧ 6148914691236517205 % 2 = 1 ∧
      1 ≤ 6148914691236517205 ∧ 6148914691236517205 ≤ 2 ^ 64 - 1) ∧
    (3 * 6148914691236517205 + 1 = 2 ^ 64 ∧ collatzStep 6148914691236517205 = 0) ∧
    (0 % 2 = 0 ∧ 0 / 2 = 0 ∧ collatzStep 0 = 0 ∧ 0 ≠ 1) ∧
    (∀ k, reachesOne 6148914691236517205 k = false) ∧
    (∀ p, texts (childPasses (p + 1)
        { n := 6148914691236517205, steps := 0, highestNumber := 1, buffer := buffer,
          pipe := [] }).pipe =
      "6148914691236517205".toList :: List.replicate p "0".toList) ∧
    (∀ fuel, childLoop fuel
        { n := 6148914691236517205, steps := 0, highestNumber := 1, buffer := buffer,
          pipe := [] } = none) ∧
    (∀ fuel, child fuel 6148914691236517205 buffer = none) ∧
    (∀ fuel, main { pipeOk := true, forkOk := true, buffer := buffer } fuel
        [prog, "6148914691236517205".toList] = none) := by
  have hne : (6148914691236517205 : Nat) ≠ 1 := by decide
  have hz : collatzStep 6148914691236517205 = 0 := by decide
  have hval : validate [prog, "6148914691236517205".toList] = .ok 6148914691236517205 := by rfl
  have hloop : ∀ fuel, childLoop fuel
      { n := 6148914691236517205, steps := 0, highestNumber := 1, buffer := buffer,
        pipe := [] } = none := fun fuel => childLoop_step_zero fuel _ hne hz
  have hchild : ∀ fuel, child fuel 6148914691236517205 buffer = none := by
    intro fuel
    unfold child
    rw [hloop fuel]
    rfl
  refine ⟨hval, ⟨by norm_num, by norm_num, by norm_num, by norm_num⟩, ⟨by norm_num, hz⟩,
    ⟨by norm_num, by norm_num, collatzStep_zero, by norm_num⟩, ?_, ?_, hloop, hchild, ?_⟩
  · intro k
    cases hk : reachesOne 6148914691236517205 k with
    | false => rfl
    | true =>
      exfalso
      obtain ⟨c, _, _, _, _, hc, _⟩ := child_run 6148914691236517205 k k buffer hk (le_refl _)
        (by norm_num)
      rw [hchild k] at hc
      cases hc
  · intro p
    rw [childPasses, if_neg hne]
    have hb : (childBody { n := 6148914691236517205, steps := 0, highestNumber := 1,
                           buffer := buffer, pipe := [] }).n = 0 := by simp [childBody, hz]
    rw [(childPasses_zero p _ hb).2]
    simp only [childBody, write, texts, List.nil_append, List.map_cons, List.map_nil,
      List.singleton_append]
    rw [(cstr_frame buffer (decimal 6148914691236517205) (decimal_no_nul _)
      (decimal_fits _ (by norm_num))).1]
    congr 1
  · intro fuel
    unfold main
    rw [hval]
    simp only [Bool.not_true, Bool.false_eq_true, if_false]
    rw [hchild fuel]
    rfl

end Project1
